import Mathlib

/-!
Verification of the n-band semiconductor-Bloch-equation propagator
(ccmt-regensburg/sbe) against its natural-language specification.

The Python sources are shallowly embedded: machine floats become exact
rationals or reals, numpy arrays become index functions, and the fatal
`quit`/`sys.exit` calls become `Option`-valued results.
-/

namespace SBE

/-! ## Time-grid parameters (src/sbe/solver/params_parser.py and
src/cued/utility/params_parser.py) -/

/-- Truncation toward zero: the semantics of python's `int()` applied to a
number, modelled over the rationals. -/
def pytrunc (q : ℚ) : ℤ := if 0 ≤ q then ⌊q⌋ else -⌊-q⌋

/-- Fractional part returned by python's `math.modf`: it carries the sign of
its argument, `modf(x)[0] = x - trunc(x)`. -/
def modf_frac (q : ℚ) : ℚ := q - pytrunc q

/-- Number of full steps `Nf = int(abs(2*t0)/dt)` computed by `parse_params`
(src/sbe/solver/params_parser.py, line 110) and by
`ParamsParser.__append_derived_parameters` (src/cued/utility/params_parser.py,
line 223). -/
def Nf (t0 dt : ℚ) : ℤ := pytrunc (|2 * t0| / dt)

/-- Number of time-grid instants, `Nt = Nf + 1` (the `+1` includes `tf`). -/
def Nt (t0 dt : ℚ) : ℤ := Nf t0 dt + 1

/-- Condition under which the parsers print the warning
"WARNING: The time window divided by dt is not an integer":
`modf(2*t0/dt)[0] > 1e-12`. -/
def time_window_warning (t0 dt : ℚ) : Bool :=
  decide (modf_frac (2 * t0 / dt) > 1 / 1000000000000)

/-- Time-grid instant number `i`: the propagation starts at `t0` and the loop
advances the solver by the fixed step `dt` each iteration
(`solver.integrate(solver.t + dt)` in src/sbe/solver/solver_n_bands.py). -/
def time_grid (t0 dt : ℚ) (i : ℕ) : ℚ := t0 + i * dt

/-- Whether the requested time window `w` is an exact integer multiple of the
step `dt`. -/
def integer_window (w dt : ℚ) : Prop := ∃ m : ℤ, w = m * dt

/-! ## Precision / solver-method compatibility check
(src/sbe/solver/params_parser.py lines 52-61, and the identical check in
src/cued/utility/params_parser.py lines 185-194) -/

/-- Outcome of the precision check of `parse_params`: `none` means the check
passes and parsing continues, `some msg` means the program quits fatally with
the diagnostic `msg` before any propagation. -/
def precision_method_check (precision solver_method : String) : Option String :=
  if precision = "double" then none
  else if precision = "quadruple" then
    if solver_method ≠ "rk4" then
      some "Error: Quadruple precision only works with Runge-Kutta 4 ODE solver."
    else none
  else some "Only default or quadruple precision available."

/-! ## Unknown user-parameter check
(src/cued/utility/params_parser.py, ParamsParser, lines 158-174) -/

/-- Attribute names of the user parameter record that remain after python
strips the four dunder entries, as in
`ParamsParser.__check_user_params_for_wrong_arguments`. -/
def user_param_names (upkeys : Finset String) : Finset String :=
  upkeys \ {"__weakref__", "__doc__", "__dict__", "__module__"}

/-- Offending parameters computed by the check:
`(default_params | user_params) - default_params`. These are the names the
error message prints, one per line. -/
def diff_params (dflt upkeys : Finset String) : Finset String :=
  (dflt ∪ user_param_names upkeys) \ dflt

/-- ParamsParser construction halts the run (`sys.exit()`) exactly when
`diff_params` is nonempty. -/
def wrong_args_fatal (dflt upkeys : Finset String) : Bool :=
  decide (diff_params dflt upkeys ≠ ∅)

/-! ## Liouville tensors assembled by `rhs_of_sbe`
(src/sbe/solver/solver_n_bands.py lines 249-272).

Each tensor is an `Nk1 × n² × n²` complex array filled by nested accumulation
loops over the band indices `m, i, j` (plus `l` for the dipole tensor); entry
`(k, r, c)` below is the sum of every loop contribution landing on it. -/

/-- Dipole-coupling tensor: the first loop adds `-i*d_ij(k)` at
`(m*n+i, m*n+j)`, the second subtracts `-i*d_ml(k)` at `(m*n+i, l*n+i)`. -/
noncomputable def rhs_dipole (n : ℕ) (dipole_in_path : ℕ → ℕ → ℕ → ℂ) (k r c : ℕ) : ℂ :=
  (∑ m ∈ Finset.range n, ∑ i ∈ Finset.range n, ∑ j ∈ Finset.range n,
      if r = m * n + i ∧ c = m * n + j then -Complex.I * dipole_in_path k i j else 0)
    + (∑ m ∈ Finset.range n, ∑ l ∈ Finset.range n, ∑ i ∈ Finset.range n,
        if r = m * n + i ∧ c = l * n + i then Complex.I * dipole_in_path k m l else 0)

/-- Energy tensor: `-i*(E_m(k) - E_i(k))` is added at `(m*n+i, m*n+j)` when
`i = j`. The band energies are real values stored in the complex array
`e_in_path`. -/
noncomputable def rhs_e (n : ℕ) (e_in_path : ℕ → ℕ → ℝ) (k r c : ℕ) : ℂ :=
  ∑ m ∈ Finset.range n, ∑ i ∈ Finset.range n, ∑ j ∈ Finset.range n,
    if r = m * n + i ∧ c = m * n + j ∧ i = j then
      -Complex.I * ((e_in_path k m : ℂ) - (e_in_path k i : ℂ)) else 0

/-- Population-decay tensor: `-gamma1 = -1/T1` is added at `(m*n+i, m*n+j)`
when `i = j` and `m = i`. -/
noncomputable def rhs_gamma1 (n : ℕ) (gamma1 : ℝ) (k r c : ℕ) : ℂ :=
  ∑ m ∈ Finset.range n, ∑ i ∈ Finset.range n, ∑ j ∈ Finset.range n,
    if r = m * n + i ∧ c = m * n + j ∧ i = j ∧ m = i then -(gamma1 : ℂ) else 0

/-- Coherence-decay tensor: `-gamma2 = -1/T2` is added at `(m*n+i, m*n+j)`
when `i = j` and `m ≠ i`. -/
noncomputable def rhs_gamma2 (n : ℕ) (gamma2 : ℝ) (k r c : ℕ) : ℂ :=
  ∑ m ∈ Finset.range n, ∑ i ∈ Finset.range n, ∑ j ∈ Finset.range n,
    if r = m * n + i ∧ c = m * n + j ∧ i = j ∧ m ≠ i then -(gamma2 : ℂ) else 0

/-! ## Right-hand side of the SBE ODE
(`make_fnumba`, src/sbe/solver/solver_n_bands.py lines 275-313) -/

/-- Upper neighbour index of k-point `k` used by the finite-difference term of
`fnumba` (lines 293-302): `k+1`, except that the last point `Nk1-1` takes `0`. -/
def i_k (Nk1 k : ℕ) : ℕ := if k = 0 then k + 1 else if k = Nk1 - 1 then 0 else k + 1

/-- Lower neighbour index of k-point `k` used by the finite-difference term of
`fnumba`: `k-1`, except that the first point `0` takes `Nk1-1`. -/
def j_k (Nk1 k : ℕ) : ℕ := if k = 0 then Nk1 - 1 else if k = Nk1 - 1 then k - 1 else k - 1

/-- Right-hand side `fnumba` produced by `make_fnumba`. The flat complex state
`y` holds the `n²` vectorized density-matrix components of each of the `Nk1`
k-points (block `k` occupies flat indices `k*n² .. (k+1)*n² - 1`) followed by
the vector-potential scalar at index `Nk1*n²`. Block `k`, row `r` of the
result is
`dot(E(t)*rhs_dipole[k] + rhs_e[k] + rhs_gamma2[k], y_k)[r]
  + D*(y_{i_k}[r] - y_{j_k}[r]) + dot(rhs_gamma1[k], y_k - y0_k)[r]`
with `D = E(t)/(2*dk)`, and the last entry is `-E(t)`. The closure receives
no Brillouin-zone type: the neighbour wrap of `i_k`/`j_k` is applied
unconditionally. -/
noncomputable def fnumba (n Nk1 : ℕ) (dk : ℝ) (electric_field : ℝ → ℝ)
    (rhs_dipole rhs_e rhs_gamma1 rhs_gamma2 : ℕ → ℕ → ℕ → ℂ)
    (y0 : ℕ → ℂ) (t : ℝ) (y : ℕ → ℂ) : ℕ → ℂ := fun idx =>
  if idx < Nk1 * n ^ 2 then
    (∑ c ∈ Finset.range (n ^ 2),
        ((electric_field t : ℂ) * rhs_dipole (idx / n ^ 2) (idx % n ^ 2) c
          + rhs_e (idx / n ^ 2) (idx % n ^ 2) c
          + rhs_gamma2 (idx / n ^ 2) (idx % n ^ 2) c) * y (idx / n ^ 2 * n ^ 2 + c))
      + ((electric_field t / (2 * dk) : ℝ) : ℂ) *
          (y (i_k Nk1 (idx / n ^ 2) * n ^ 2 + idx % n ^ 2)
            - y (j_k Nk1 (idx / n ^ 2) * n ^ 2 + idx % n ^ 2))
      + (∑ c ∈ Finset.range (n ^ 2),
          rhs_gamma1 (idx / n ^ 2) (idx % n ^ 2) c *
            (y (idx / n ^ 2 * n ^ 2 + c) - y0 (idx / n ^ 2 * n ^ 2 + c)))
  else if idx = Nk1 * n ^ 2 then -((electric_field t : ℝ) : ℂ)
  else 0

/-! ## Initial condition
(`initial_condition`, src/sbe/solver/solver_n_bands.py lines 354-370) -/

/-- Occupation assigned to one band energy: the Fermi-Dirac distribution when
the temperature exceeds the zero threshold `1e-5`, the step distribution
(`1` exactly where `e_fermi - e > 0`) otherwise. -/
noncomputable def distrib_bands (e_fermi temperature : ℝ) (e : ℝ) : ℝ :=
  if temperature > 1 / 100000 then 1 / (Real.exp ((e - e_fermi) / temperature) + 1)
  else if e_fermi - e > 0 then 1 else 0

/-- Entry `(m, i)` of the initial density matrix at k-point `k`: `np.diag`
places the band distribution on the diagonal and zero on every coherence. -/
noncomputable def initial_condition (e_fermi temperature : ℝ)
    (e_in_path : ℕ → ℕ → ℝ) (k m i : ℕ) : ℂ :=
  if m = i then (distrib_bands e_fermi temperature (e_in_path k m) : ℂ) else 0

/-- Flat initial state vector `y0`: the C-order flattening of
`initial_condition` over `(k, m, i)` with the vector-potential scalar `0.0`
appended at index `Nk1*n²` (`np.append(y0, [0.0])`,
src/sbe/solver/solver_n_bands.py lines 182-183). -/
noncomputable def y0_vec (n Nk1 : ℕ) (e_fermi temperature : ℝ)
    (e_in_path : ℕ → ℕ → ℝ) : ℕ → ℂ := fun idx =>
  if idx < Nk1 * n ^ 2 then
    initial_condition e_fermi temperature e_in_path
      (idx / n ^ 2) (idx % n ^ 2 / n) (idx % n ^ 2 % n)
  else 0

/-- Modelled from the spec: `make_electric_field` is imported by the solver
(src/sbe/solver/solver_n_bands.py line 11) but its definition is not among the
sources; section 4.2 of the specification gives the waveform
`E(t) = E0 * exp(-t²/(2*alpha²)) * cos(w*t + chirp*t² + phase)`. -/
noncomputable def electric_field (E0 w alpha chirp phase : ℝ) (t : ℝ) : ℝ :=
  E0 * Real.exp (-t ^ 2 / (2 * alpha ^ 2)) * Real.cos (w * t + chirp * t ^ 2 + phase)

/-! ## Spectral post-processing
(`fourier` and `write_current_emission`,
src/sbe/solver/solver_n_bands.py lines 399-404 and 407-487) -/

/-- Discrete Fourier transform with the numpy.fft.fft convention
`A_j = sum_m a_m * exp(-2*pi*i*j*m/N)`. -/
noncomputable def npfft (N : ℕ) (x : ℕ → ℂ) (j : ℕ) : ℂ :=
  ∑ m ∈ Finset.range N,
    x m * Complex.exp (-2 * (Real.pi : ℂ) * Complex.I * (j : ℂ) * (m : ℂ) / (N : ℂ))

/-- numpy.fft.fftshift on a length-`N` vector: a cyclic roll by `N/2`
positions, `result[j] = x[(j + (N - N/2)) % N]`, which moves the
zero-frequency entry to the centre. -/
def fftshift (N : ℕ) (x : ℕ → ℂ) (j : ℕ) : ℂ := x ((j + (N - N / 2)) % N)

/-- numpy.fft.ifftshift, the inverse roll: `result[j] = x[(j + N/2) % N]`. -/
def ifftshift (N : ℕ) (x : ℕ → ℂ) (j : ℕ) : ℂ := x ((j + N / 2) % N)

/-- Phase-correct Fourier transform of the solver (function `fourier`):
`(dt/sqrt(2*pi)) * fftshift(fft(ifftshift(data)))`. -/
noncomputable def fourier (N : ℕ) (dt : ℝ) (data : ℕ → ℂ) (j : ℕ) : ℂ :=
  ((dt / Real.sqrt (2 * Real.pi) : ℝ) : ℂ) * fftshift N (npfft N (ifftshift N data)) j

/-- Free-space radiation prefactor `1/(3*c³) = 1/(3*137.036³)` in atomic
units, from `write_current_emission`. -/
noncomputable def prefac_emission : ℝ := 1 / (3 * 137.036 ^ 3)

/-- Emission intensity computed by `write_current_emission` (lines 472-475):
`Int = prefac_emission * freq² * abs(Iw)²` where `Iw` is the `fourier`
transform of the (windowed, weighted) time-domain signal. -/
noncomputable def emission_intensity (N : ℕ) (dt : ℝ) (freq : ℕ → ℝ)
    (signal : ℕ → ℂ) (j : ℕ) : ℝ :=
  prefac_emission * freq j ^ 2 * Complex.abs (fourier N dt signal j) ^ 2

end SBE

namespace SBE

/-! ## Index helper lemmas for the vectorized `n² × n²` basis -/

/-- Division recovers the block of a flat block index. -/
theorem block_div {n b i : ℕ} (hn : 0 < n) (hi : i < n) : (b * n + i) / n = b := by
  rw [mul_comm, Nat.mul_add_div hn, Nat.div_eq_of_lt hi, add_zero]

/-- Remainder recovers the offset of a flat block index. -/
theorem block_mod {n b i : ℕ} (hi : i < n) : (b * n + i) % n = i := by
  rw [mul_comm, Nat.mul_add_mod, Nat.mod_eq_of_lt hi]

/-- A vectorized band pair lies inside the `n²`-dimensional basis. -/
theorem vec_lt {n m i : ℕ} (hm : m < n) (hi : i < n) : m * n + i < n ^ 2 := by
  calc m * n + i < (m + 1) * n := by rw [add_mul, one_mul]; omega
    _ ≤ n * n := Nat.mul_le_mul (by omega) (le_refl n)
    _ = n ^ 2 := (pow_two n).symm

/-- Two indices with equal quotient and remainder by `n` coincide. -/
theorem div_mod_ext {r c n : ℕ} (hd : r / n = c / n) (hm : r % n = c % n) : r = c := by
  calc r = n * (r / n) + r % n := (Nat.div_add_mod r n).symm
    _ = n * (c / n) + c % n := by rw [hd, hm]
    _ = c := Nat.div_add_mod c n

/-- Splitting a conjunction guard of an accumulation contribution. -/
theorem ite_split (A B P : Prop) [Decidable A] [Decidable B] [Decidable P] (w : ℂ) :
    (if A ∧ B ∧ P then w else 0) = if A ∧ B then if P then w else 0 else 0 := by
  by_cases hA : A <;> by_cases hB : B <;> by_cases hP : P <;> simp [hA, hB, hP]

/-- Evaluation of a triple accumulation sum over band indices at one entry of
the vectorized basis: only the decomposition `r = (r/n)*n + r%n`,
`c = (c/n)*n + c%n` can contribute, and only when both indices lie in the same
block row `m = r/n = c/n`. -/
theorem triple_sum_apply (n r c : ℕ) (hr : r < n ^ 2) (hc : c < n ^ 2)
    (v : ℕ → ℕ → ℕ → ℂ) :
    (∑ m ∈ Finset.range n, ∑ i ∈ Finset.range n, ∑ j ∈ Finset.range n,
        if r = m * n + i ∧ c = m * n + j then v m i j else 0)
      = if r / n = c / n then v (r / n) (r % n) (c % n) else 0 := by
  have hn : 0 < n := by
    rcases Nat.eq_zero_or_pos n with h | h
    · subst h; simp at hr
    · exact h
  have hrn : r / n < n := by
    rw [Nat.div_lt_iff_lt_mul hn]
    calc r < n ^ 2 := hr
      _ = n * n := pow_two n
  have hrmod : r % n < n := Nat.mod_lt _ hn
  have hcmod : c % n < n := Nat.mod_lt _ hn
  have hrdm : r / n * n + r % n = r := by rw [mul_comm]; exact Nat.div_add_mod r n
  have hcdm : c / n * n + c % n = c := by rw [mul_comm]; exact Nat.div_add_mod c n
  rw [Finset.sum_eq_single_of_mem (r / n) (Finset.mem_range.mpr hrn) (by
    intro b hb hbne
    apply Finset.sum_eq_zero
    intro i hi
    apply Finset.sum_eq_zero
    intro j hj
    rw [if_neg]
    rintro ⟨hri, -⟩
    apply hbne
    rw [hri]
    exact (block_div hn (Finset.mem_range.mp hi)).symm)]
  rw [Finset.sum_eq_single_of_mem (r % n) (Finset.mem_range.mpr hrmod) (by
    intro i hi hine
    apply Finset.sum_eq_zero
    intro j hj
    rw [if_neg]
    rintro ⟨hri, -⟩
    apply hine
    rw [hri]
    exact (block_mod (Finset.mem_range.mp hi)).symm)]
  by_cases hdc : r / n = c / n
  · rw [if_pos hdc]
    rw [Finset.sum_eq_single_of_mem (c % n) (Finset.mem_range.mpr hcmod) (by
      intro j hj hjne
      rw [if_neg]
      rintro ⟨-, hcj⟩
      apply hjne
      rw [hcj]
      exact (block_mod (Finset.mem_range.mp hj)).symm)]
    rw [if_pos ⟨hrdm.symm, by rw [hdc]; exact hcdm.symm⟩]
  · rw [if_neg hdc]
    apply Finset.sum_eq_zero
    intro j hj
    rw [if_neg]
    rintro ⟨-, hcj⟩
    apply hdc
    rw [hcj]
    exact (block_div hn (Finset.mem_range.mp hj)).symm

/-- Closed form of the energy tensor on the vectorized basis. -/
theorem rhs_e_apply (n : ℕ) (e_in_path : ℕ → ℕ → ℝ) (k r c : ℕ)
    (hr : r < n ^ 2) (hc : c < n ^ 2) :
    rhs_e n e_in_path k r c =
      if r = c then
        -Complex.I * ((e_in_path k (r / n) : ℂ) - (e_in_path k (r % n) : ℂ))
      else 0 := by
  rw [rhs_e]
  simp only [ite_split]
  rw [triple_sum_apply n r c hr hc]
  by_cases h : r = c
  · subst h
    rw [if_pos rfl, if_pos rfl, if_pos rfl]
  · rw [if_neg h]
    split_ifs with h1 h2
    · exact absurd (div_mod_ext h1 h2) h
    · rfl
    · rfl

/-- Closed form of the population-decay tensor on the vectorized basis. -/
theorem rhs_gamma1_apply (n : ℕ) (gamma1 : ℝ) (k r c : ℕ)
    (hr : r < n ^ 2) (hc : c < n ^ 2) :
    rhs_gamma1 n gamma1 k r c =
      if r = c ∧ r / n = r % n then -(gamma1 : ℂ) else 0 := by
  rw [rhs_gamma1]
  simp only [ite_split]
  rw [triple_sum_apply n r c hr hc]
  by_cases h : r = c
  · subst h
    rw [if_pos rfl]
    by_cases hpop : r / n = r % n
    · rw [if_pos ⟨rfl, hpop⟩, if_pos ⟨rfl, hpop⟩]
    · rw [if_neg (fun hx => hpop hx.2), if_neg (fun hx => hpop hx.2)]
  · rw [if_neg (show ¬(r = c ∧ r / n = r % n) from fun hx => h hx.1)]
    split_ifs with h1 h2
    · exact absurd (div_mod_ext h1 h2.1) h
    · rfl
    · rfl

/-- Closed form of the coherence-decay tensor on the vectorized basis. -/
theorem rhs_gamma2_apply (n : ℕ) (gamma2 : ℝ) (k r c : ℕ)
    (hr : r < n ^ 2) (hc : c < n ^ 2) :
    rhs_gamma2 n gamma2 k r c =
      if r = c ∧ r / n ≠ r % n then -(gamma2 : ℂ) else 0 := by
  rw [rhs_gamma2]
  simp only [ite_split]
  rw [triple_sum_apply n r c hr hc]
  by_cases h : r = c
  · subst h
    rw [if_pos rfl]
    by_cases hpop : r / n = r % n
    · rw [if_neg (fun hx => hx.2 hpop), if_neg (fun hx => hx.2 hpop)]
    · rw [if_pos ⟨rfl, hpop⟩, if_pos ⟨rfl, hpop⟩]
  · rw [if_neg (show ¬(r = c ∧ r / n ≠ r % n) from fun hx => h hx.1)]
    split_ifs with h1 h2
    · exact absurd (div_mod_ext h1 h2.1) h
    · rfl
    · rfl

/-- The upper neighbour of `fnumba` is the periodic wrap `(k+1) mod Nk1`. -/
theorem i_k_mod {Nk1 k : ℕ} (hNk1 : 2 ≤ Nk1) (hk : k < Nk1) :
    i_k Nk1 k = (k + 1) % Nk1 := by
  simp only [i_k]
  by_cases h0 : k = 0
  · subst h0
    rw [if_pos rfl, Nat.mod_eq_of_lt (by omega)]
  · rw [if_neg h0]
    by_cases hl : k = Nk1 - 1
    · rw [if_pos hl]
      subst hl
      rw [show Nk1 - 1 + 1 = Nk1 by omega, Nat.mod_self]
    · rw [if_neg hl, Nat.mod_eq_of_lt (by omega)]

/-- The lower neighbour of `fnumba` is the periodic wrap `(k-1) mod Nk1`,
written additively as `(k + (Nk1-1)) mod Nk1`. -/
theorem j_k_mod {Nk1 k : ℕ} (hNk1 : 2 ≤ Nk1) (hk : k < Nk1) :
    j_k Nk1 k = (k + (Nk1 - 1)) % Nk1 := by
  simp only [j_k]
  by_cases h0 : k = 0
  · subst h0
    rw [if_pos rfl, Nat.zero_add, Nat.mod_eq_of_lt (by omega)]
  · rw [if_neg h0, ite_self,
      show k + (Nk1 - 1) = (k - 1) + Nk1 by omega,
      Nat.add_mod_right, Nat.mod_eq_of_lt (by omega)]

/-! ## Theorems for claims C1, C2, C3, C4, C5, C9 -/

/-- C1: for every k-point `k` on a path of `Nk1 ≥ 2` points and every row `r`
of the vectorized basis, the right-hand side `fnumba` adds to the linear part
the centered finite-difference coupling `D*(y_{k+1} - y_{k-1})` with
coefficient `D = E(t)/(2*dk)`, where both neighbour block indices wrap
periodically modulo `Nk1` (index `0` uses neighbour `Nk1-1` and index `Nk1-1`
uses neighbour `0`); the statement quantifies over arbitrary tensors, field
and state, and `fnumba` receives no Brillouin-zone type, so the wrap holds
unconditionally, also for the open rectangular 2line mesh. -/
theorem fnumba_centered_difference (n Nk1 : ℕ) (dk : ℝ) (ef : ℝ → ℝ)
    (rd rhse rg1 rg2 : ℕ → ℕ → ℕ → ℂ) (y0 y : ℕ → ℂ) (t : ℝ) (k r : ℕ)
    (hNk1 : 2 ≤ Nk1) (hk : k < Nk1) (hr : r < n ^ 2) :
    fnumba n Nk1 dk ef rd rhse rg1 rg2 y0 t y (k * n ^ 2 + r)
      = (∑ c ∈ Finset.range (n ^ 2),
            ((ef t : ℂ) * rd k r c + rhse k r c + rg2 k r c) * y (k * n ^ 2 + c))
        + ((ef t / (2 * dk) : ℝ) : ℂ) *
            (y ((k + 1) % Nk1 * n ^ 2 + r) - y ((k + (Nk1 - 1)) % Nk1 * n ^ 2 + r))
        + (∑ c ∈ Finset.range (n ^ 2),
            rg1 k r c * (y (k * n ^ 2 + c) - y0 (k * n ^ 2 + c))) := by
  have hn2 : 0 < n ^ 2 := lt_of_le_of_lt (Nat.zero_le r) hr
  have hidx : k * n ^ 2 + r < Nk1 * n ^ 2 := by
    calc k * n ^ 2 + r < (k + 1) * n ^ 2 := by rw [add_mul, one_mul]; omega
      _ ≤ Nk1 * n ^ 2 := Nat.mul_le_mul (by omega) (le_refl (n ^ 2))
  simp only [fnumba]
  rw [if_pos hidx, block_div hn2 hr, block_mod hr, i_k_mod hNk1 hk, j_k_mod hNk1 hk]

/-- C1 witness at `n = 1`, `Nk1 = 2`, `k = 0`, `r = 0`, zero field and zero
tensors and state. -/
theorem fnumba_centered_difference_witness :
    2 ≤ 2 ∧ 0 < 2 ∧ 0 < 1 ^ 2 ∧
    fnumba 1 2 1 (fun _ => 0) (fun _ _ _ => 0) (fun _ _ _ => 0) (fun _ _ _ => 0)
        (fun _ _ _ => 0) (fun _ => 0) 0 (fun _ => 0) (0 * 1 ^ 2 + 0)
      = (∑ c ∈ Finset.range (1 ^ 2),
            (((fun _ : ℝ => (0 : ℝ)) 0 : ℂ) * (fun _ _ _ : ℕ => (0 : ℂ)) 0 0 c
              + (fun _ _ _ : ℕ => (0 : ℂ)) 0 0 c
              + (fun _ _ _ : ℕ => (0 : ℂ)) 0 0 c) * (fun _ : ℕ => (0 : ℂ)) (0 * 1 ^ 2 + c))
        + (((fun _ : ℝ => (0 : ℝ)) 0 / (2 * 1) : ℝ) : ℂ) *
            ((fun _ : ℕ => (0 : ℂ)) ((0 + 1) % 2 * 1 ^ 2 + 0)
              - (fun _ : ℕ => (0 : ℂ)) ((0 + (2 - 1)) % 2 * 1 ^ 2 + 0))
        + (∑ c ∈ Finset.range (1 ^ 2),
            (fun _ _ _ : ℕ => (0 : ℂ)) 0 0 c *
              ((fun _ : ℕ => (0 : ℂ)) (0 * 1 ^ 2 + c)
                - (fun _ : ℕ => (0 : ℂ)) (0 * 1 ^ 2 + c))) :=
  ⟨by omega, by omega, by norm_num,
    fnumba_centered_difference 1 2 1 (fun _ => 0) (fun _ _ _ => 0) (fun _ _ _ => 0)
      (fun _ _ _ => 0) (fun _ _ _ => 0) (fun _ => 0) (fun _ => 0) 0 0 0
      (by omega) (by omega) (by norm_num)⟩

/-- C2: on every path and at every k-point `k`, the energy tensor is diagonal
in the vectorized `n² × n²` basis with value `-i*(E_m(k) - E_i(k))` at
vectorized index `(m, i)`, the population-decay tensor is diagonal with value
`-gamma1 = -1/T1` exactly where the row band equals the column band (`m = i`)
and zero elsewhere, and the coherence-decay tensor is diagonal with value
`-gamma2 = -1/T2` exactly where the row band differs from the column band
(`m ≠ i`) and zero elsewhere; all off-diagonal entries of the three tensors
vanish. -/
theorem rhs_tensors_diagonal_structure (n : ℕ) (e_in_path : ℕ → ℕ → ℝ)
    (gamma1 gamma2 : ℝ) (k m i : ℕ) (hm : m < n) (hi : i < n) :
    rhs_e n e_in_path k (m * n + i) (m * n + i)
        = -Complex.I * ((e_in_path k m : ℂ) - (e_in_path k i : ℂ)) ∧
    rhs_gamma1 n gamma1 k (m * n + i) (m * n + i)
        = (if m = i then -(gamma1 : ℂ) else 0) ∧
    rhs_gamma2 n gamma2 k (m * n + i) (m * n + i)
        = (if m = i then 0 else -(gamma2 : ℂ)) ∧
    (∀ r c, r < n ^ 2 → c < n ^ 2 → r ≠ c →
      rhs_e n e_in_path k r c = 0 ∧ rhs_gamma1 n gamma1 k r c = 0 ∧
        rhs_gamma2 n gamma2 k r c = 0) := by
  have hn : 0 < n := lt_of_le_of_lt (Nat.zero_le i) hi
  have hlt : m * n + i < n ^ 2 := vec_lt hm hi
  have hd : (m * n + i) / n = m := block_div hn hi
  have hmod : (m * n + i) % n = i := block_mod hi
  refine ⟨?_, ?_, ?_, ?_⟩
  · rw [rhs_e_apply n e_in_path k _ _ hlt hlt, if_pos rfl, hd, hmod]
  · rw [rhs_gamma1_apply n gamma1 k _ _ hlt hlt, hd, hmod]
    simp
  · rw [rhs_gamma2_apply n gamma2 k _ _ hlt hlt, hd, hmod]
    simp [ite_not]
  · intro r c hr hc hne
    refine ⟨?_, ?_, ?_⟩
    · rw [rhs_e_apply n e_in_path k _ _ hr hc, if_neg hne]
    · rw [rhs_gamma1_apply n gamma1 k _ _ hr hc,
        if_neg (show ¬(r = c ∧ r / n = r % n) from fun hx => hne hx.1)]
    · rw [rhs_gamma2_apply n gamma2 k _ _ hr hc,
        if_neg (show ¬(r = c ∧ r / n ≠ r % n) from fun hx => hne hx.1)]

/-- C2 witness at `n = 2`, vanishing energies, `gamma1 = gamma2 = 1`,
`k = 0`, `m = 0`, `i = 1`. -/
theorem rhs_tensors_diagonal_structure_witness :
    rhs_e 2 (fun _ _ => 0) 0 (0 * 2 + 1) (0 * 2 + 1)
        = -Complex.I * (((fun _ _ : ℕ => (0 : ℝ)) 0 0 : ℂ)
            - ((fun _ _ : ℕ => (0 : ℝ)) 0 1 : ℂ)) ∧
    rhs_gamma1 2 1 0 (0 * 2 + 1) (0 * 2 + 1) = (if 0 = 1 then -((1 : ℝ) : ℂ) else 0) ∧
    rhs_gamma2 2 1 0 (0 * 2 + 1) (0 * 2 + 1) = (if 0 = 1 then 0 else -((1 : ℝ) : ℂ)) ∧
    (∀ r c, r < 2 ^ 2 → c < 2 ^ 2 → r ≠ c →
      rhs_e 2 (fun _ _ => 0) 0 r c = 0 ∧ rhs_gamma1 2 1 0 r c = 0 ∧
        rhs_gamma2 2 1 0 r c = 0) :=
  rhs_tensors_diagonal_structure 2 (fun _ _ => 0) 1 1 0 0 1 (by omega) (by omega)

/-- C3: the initial state has every off-diagonal (coherence) entry equal to
zero at every k-point; each diagonal (population) entry equals the
Fermi-Dirac occupation `1/(exp((e - e_fermi)/temperature) + 1)` when the
temperature exceeds the zero threshold `1e-5`, and equals the step
distribution (`1` where `e < e_fermi`, `0` otherwise) at zero temperature. -/
theorem initial_condition_fermi_dirac (e_fermi temperature : ℝ)
    (e_in_path : ℕ → ℕ → ℝ) (k m i : ℕ) :
    (m ≠ i → initial_condition e_fermi temperature e_in_path k m i = 0) ∧
    (temperature > 1 / 100000 →
      initial_condition e_fermi temperature e_in_path k m m
        = ((1 / (Real.exp ((e_in_path k m - e_fermi) / temperature) + 1) : ℝ) : ℂ)) ∧
    (temperature = 0 →
      initial_condition e_fermi temperature e_in_path k m m
        = if e_in_path k m < e_fermi then 1 else 0) := by
  refine ⟨fun h => ?_, fun h => ?_, fun h => ?_⟩
  · rw [initial_condition, if_neg h]
  · rw [initial_condition, if_pos rfl, distrib_bands, if_pos h]
  · rw [initial_condition, if_pos rfl, distrib_bands,
      if_neg (show ¬(temperature > (1 / 100000 : ℝ)) from by rw [h]; norm_num)]
    by_cases hlt : e_in_path k m < e_fermi
    · rw [if_pos (sub_pos.mpr hlt), if_pos hlt, Complex.ofReal_one]
    · rw [if_neg (fun hc => hlt (sub_pos.mp hc)), if_neg hlt, Complex.ofReal_zero]

/-- C3 witness at `e_fermi = 0`, `temperature = 1`, vanishing band energies,
`k = 0`, `m = 0`, `i = 1`. -/
theorem initial_condition_fermi_dirac_witness :
    ((0 : ℕ) ≠ 1 → initial_condition 0 1 (fun _ _ => 0) 0 0 1 = 0) ∧
    ((1 : ℝ) > 1 / 100000 →
      initial_condition 0 1 (fun _ _ => 0) 0 0 0
        = ((1 / (Real.exp (((fun _ _ : ℕ => (0 : ℝ)) 0 0 - 0) / 1) + 1) : ℝ) : ℂ)) ∧
    ((1 : ℝ) = 0 →
      initial_condition 0 1 (fun _ _ => 0) 0 0 0
        = if (fun _ _ : ℕ => (0 : ℝ)) 0 0 < 0 then 1 else 0) :=
  initial_condition_fermi_dirac 0 1 (fun _ _ => 0) 0 0 1

/-- C4: with zero driving-field amplitude the spec-modelled waveform vanishes
identically, and the equilibrium initial condition (Fermi-Dirac populations,
zero coherences, zero vector potential) is a fixed point of the right-hand
side: `fnumba`, assembled with the actual Liouville tensors and evaluated at
the equilibrium state, returns the zero vector at every component and every
time, so an exact integration leaves the density matrix at its initial
value. -/
theorem zero_field_equilibrium_fixed_point (n Nk1 : ℕ) (dk : ℝ)
    (w alpha chirp phase e_fermi temperature gamma1 gamma2 : ℝ)
    (dipole_in_path : ℕ → ℕ → ℕ → ℂ) (e_in_path : ℕ → ℕ → ℝ) (t : ℝ) (idx : ℕ) :
    fnumba n Nk1 dk (electric_field 0 w alpha chirp phase)
        (rhs_dipole n dipole_in_path) (rhs_e n e_in_path)
        (rhs_gamma1 n gamma1) (rhs_gamma2 n gamma2)
        (y0_vec n Nk1 e_fermi temperature e_in_path) t
        (y0_vec n Nk1 e_fermi temperature e_in_path) idx = 0 := by
  have hef : electric_field 0 w alpha chirp phase t = 0 := by
    simp [electric_field]
  simp only [fnumba, hef, Complex.ofReal_zero, zero_mul, zero_add, zero_div,
    neg_zero, sub_self, mul_zero, Finset.sum_const_zero, add_zero]
  split_ifs with h1 h2
  · apply Finset.sum_eq_zero
    intro c hcmem
    have hc : c < n ^ 2 := Finset.mem_range.mp hcmem
    have hn2 : 0 < n ^ 2 := lt_of_le_of_lt (Nat.zero_le c) hc
    have hr : idx % n ^ 2 < n ^ 2 := Nat.mod_lt idx hn2
    by_cases hrc : idx % n ^ 2 = c
    · rw [← hrc]
      rw [rhs_e_apply n e_in_path _ _ _ hr hr, rhs_gamma2_apply n gamma2 _ _ _ hr hr,
        if_pos rfl]
      by_cases hpop : idx % n ^ 2 / n = idx % n ^ 2 % n
      · rw [hpop, sub_self, mul_zero]
        simp
      · rw [if_pos ⟨rfl, hpop⟩]
        have hidxeq : idx / n ^ 2 * n ^ 2 + idx % n ^ 2 = idx := by
          rw [mul_comm]
          exact Nat.div_add_mod idx (n ^ 2)
        have hy0 : y0_vec n Nk1 e_fermi temperature e_in_path
            (idx / n ^ 2 * n ^ 2 + idx % n ^ 2) = 0 := by
          rw [hidxeq]
          simp only [y0_vec]
          rw [if_pos h1, initial_condition, if_neg hpop]
        rw [hy0, mul_zero]
    · rw [rhs_e_apply n e_in_path _ _ _ hr hc, rhs_gamma2_apply n gamma2 _ _ _ hr hc,
        if_neg hrc,
        if_neg (show ¬(idx % n ^ 2 = c ∧ idx % n ^ 2 / n ≠ idx % n ^ 2 % n)
          from fun hx => hrc hx.1)]
      simp
  · rfl
  · rfl

/-- C5: the spectral post-processor computes
`S(w) = (dt/sqrt(2*pi)) * FFT(ifftshift(signal))`, frequency-shifted so that
zero frequency is centered; written out per output index `j`, with the
explicit numpy DFT sum and the explicit cyclic index rolls; and the emission
intensity is the free-space prefactor `1/(3*137.036³)` times `freq²` times
`|S(w)|²`. -/
theorem fourier_transform_and_intensity (N : ℕ) (dt : ℝ) (data signal : ℕ → ℂ)
    (freq : ℕ → ℝ) (j : ℕ) :
    fourier N dt data j
        = ((dt / Real.sqrt (2 * Real.pi) : ℝ) : ℂ) *
            ∑ m ∈ Finset.range N,
              data ((m + N / 2) % N) *
                Complex.exp (-2 * (Real.pi : ℂ) * Complex.I *
                  (((j + (N - N / 2)) % N : ℕ) : ℂ) * (m : ℂ) / (N : ℂ)) ∧
    emission_intensity N dt freq signal j
        = 1 / (3 * 137.036 ^ 3) * freq j ^ 2 *
            Complex.abs (fourier N dt signal j) ^ 2 :=
  ⟨rfl, rfl⟩

/-- C9: the last scalar component of the coupled state vector integrates the
vector potential: the right-hand side returns `-E(t)` at flat index `Nk1*n²`
for every time, state and tensors, and the initial state vector carries the
value `0` there. -/
theorem vector_potential_rhs_and_init (n Nk1 : ℕ) (dk : ℝ) (ef : ℝ → ℝ)
    (rd rhse rg1 rg2 : ℕ → ℕ → ℕ → ℂ) (y0 y : ℕ → ℂ) (t : ℝ)
    (e_fermi temperature : ℝ) (e_in_path : ℕ → ℕ → ℝ) :
    fnumba n Nk1 dk ef rd rhse rg1 rg2 y0 t y (Nk1 * n ^ 2) = -((ef t : ℝ) : ℂ) ∧
    y0_vec n Nk1 e_fermi temperature e_in_path (Nk1 * n ^ 2) = 0 := by
  constructor
  · simp [fnumba]
  · simp [y0_vec]

/-! ## Theorems for claims C6, C7, C8, C10 -/

/-- C6: for every start time `t0` and positive step `dt`, the number of
time-grid instants is `Nt = floor(2*|t0|/dt) + 1`; and whenever the window
`2*|t0|` is an exact multiple `m*dt` with `t0 ≤ 0`, the grid covers equally
spaced instants from `t0` to `-t0`: the last instant `t0 + (Nt-1)*dt` equals
`-t0`. -/
theorem time_grid_count (t0 dt : ℚ) (hdt : 0 < dt) :
    Nt t0 dt = ⌊2 * |t0| / dt⌋ + 1 ∧
    (∀ m : ℕ, 2 * |t0| = m * dt → t0 ≤ 0 →
      time_grid t0 dt (Nt t0 dt - 1).toNat = -t0) := by
  have habs : |2 * t0| = 2 * |t0| := by
    rw [abs_mul]
    norm_num
  have hnonneg : 0 ≤ |2 * t0| / dt := div_nonneg (abs_nonneg _) (le_of_lt hdt)
  have hNf : Nf t0 dt = ⌊2 * |t0| / dt⌋ := by
    rw [Nf, pytrunc, if_pos hnonneg, habs]
  constructor
  · rw [Nt, hNf]
  · intro m hm ht0
    have hq : 2 * |t0| / dt = (m : ℚ) := by
      rw [hm]
      field_simp
    have hfloor : ⌊2 * |t0| / dt⌋ = (m : ℤ) := by
      rw [hq]
      exact_mod_cast Int.floor_intCast (m : ℤ)
    have hNt : Nt t0 dt = (m : ℤ) + 1 := by rw [Nt, hNf, hfloor]
    have htn : (Nt t0 dt - 1).toNat = m := by
      rw [hNt]
      simp
    rw [time_grid, htn]
    have habs' : |t0| = -t0 := abs_of_nonpos ht0
    have : (m : ℚ) * dt = 2 * (-t0) := by rw [← hm, habs']
    linarith

/-- C6 witness at `t0 = -2`, `dt = 1`. -/
theorem time_grid_count_witness :
    (0 : ℚ) < 1 ∧
    (Nt (-2) 1 = ⌊2 * |(-2 : ℚ)| / 1⌋ + 1 ∧
      (∀ m : ℕ, 2 * |(-2 : ℚ)| = m * 1 → (-2 : ℚ) ≤ 0 →
        time_grid (-2) 1 (Nt (-2) 1 - 1).toNat = -(-2))) :=
  ⟨by norm_num, time_grid_count (-2) 1 (by norm_num)⟩

/-- C7 (code evaluation at the failing input): at `t0 = -5/4`, `dt = 1` the
requested time window `2*|t0| = 5/2` is not an integer multiple of `dt`, yet
the warning condition evaluated by the code is false, because `math.modf` of
the negative quotient `2*t0/dt = -5/2` returns a negative fractional part
which is never greater than `1e-12`; no warning is printed. -/
theorem time_window_warning_missed_at_negative_t0 :
    time_window_warning (-5/4) 1 = false ∧
    ¬ integer_window (2 * |(-5/4 : ℚ)|) 1 := by
  constructor
  · rw [time_window_warning, decide_eq_false_iff_not]
    have hq : 2 * (-5/4 : ℚ) / 1 = -5/2 := by norm_num
    have hfrac : modf_frac (2 * (-5/4 : ℚ) / 1) = -1/2 := by
      rw [hq, modf_frac, pytrunc, if_neg (by norm_num : ¬ (0 : ℚ) ≤ -5/2)]
      norm_num
    rw [hfrac]
    norm_num
  · rintro ⟨m, hm⟩
    have h5 : (5 : ℚ) = 2 * (m : ℚ) := by
      rw [abs_of_nonpos (by norm_num : (-5/4 : ℚ) ≤ 0)] at hm
      linarith
    have h5' : (5 : ℤ) = 2 * m := by exact_mod_cast h5
    omega

/-- C8: with precision `quadruple`, parameter parsing quits fatally with the
specific diagnostic exactly when the solver method is not `rk4`; with
precision `double`, every solver method passes the check. -/
theorem quadruple_precision_requires_rk4 (method : String) :
    (method ≠ "rk4" →
      precision_method_check "quadruple" method =
        some "Error: Quadruple precision only works with Runge-Kutta 4 ODE solver.") ∧
    (method = "rk4" → precision_method_check "quadruple" method = none) ∧
    precision_method_check "double" method = none := by
  refine ⟨fun h => ?_, fun h => ?_, ?_⟩
  · simp [precision_method_check, h]
  · simp [precision_method_check, h]
  · simp [precision_method_check]

/-- C8 witness at `method = "bdf"` (and the `rk4`/`double` branches). -/
theorem quadruple_precision_requires_rk4_witness :
    (("bdf" : String) ≠ "rk4" →
      precision_method_check "quadruple" "bdf" =
        some "Error: Quadruple precision only works with Runge-Kutta 4 ODE solver.") ∧
    (("bdf" : String) = "rk4" → precision_method_check "quadruple" "bdf" = none) ∧
    precision_method_check "double" "bdf" = none :=
  quadruple_precision_requires_rk4 "bdf"

/-- C10: ParamsParser construction exits fatally exactly when some
(non-dunder) user attribute is not a recognized parameter, and the offending
set it prints is exactly the set of unrecognized user attributes; a record
whose attributes are all recognized passes the check. -/
theorem unknown_params_fatal (dflt upkeys : Finset String) :
    (wrong_args_fatal dflt upkeys = true ↔
      ∃ p ∈ user_param_names upkeys, p ∉ dflt) ∧
    (∀ p, p ∈ diff_params dflt upkeys ↔ p ∈ user_param_names upkeys ∧ p ∉ dflt) := by
  have hmem : ∀ p, p ∈ diff_params dflt upkeys ↔
      p ∈ user_param_names upkeys ∧ p ∉ dflt := by
    intro p
    simp only [diff_params, Finset.mem_sdiff, Finset.mem_union]
    tauto
  refine ⟨?_, hmem⟩
  rw [wrong_args_fatal, decide_eq_true_iff, ← Finset.nonempty_iff_ne_empty]
  constructor
  · rintro ⟨p, hp⟩
    exact ⟨p, (hmem p).mp hp⟩
  · rintro ⟨p, hp1, hp2⟩
    exact ⟨p, (hmem p).mpr ⟨hp1, hp2⟩⟩

/-- C10 witness: a record with the unrecognized attribute "Nk3" is rejected,
one with only "Nk1" passes. -/
theorem unknown_params_fatal_witness :
    ((wrong_args_fatal {"Nk1"} {"Nk1", "Nk3"} = true ↔
      ∃ p ∈ user_param_names {"Nk1", "Nk3"}, p ∉ ({"Nk1"} : Finset String)) ∧
    (∀ p, p ∈ diff_params {"Nk1"} {"Nk1", "Nk3"} ↔
      p ∈ user_param_names {"Nk1", "Nk3"} ∧ p ∉ ({"Nk1"} : Finset String))) :=
  unknown_params_fatal {"Nk1"} {"Nk1", "Nk3"}

end SBE
